import Mathlib

/-!
# Verification of the vscode-js-debug session-bridge core

A shallow embedding, in Lean 4, of the core of `src/thread.ts` and
`src/cdp/webSocketTransport.ts` of the debugging session bridge, with
theorems settling the specification claims about it.

Modelling conventions:
* JavaScript `Set` objects are modelled as Lean `List`s used as sets
  (insertion order preserved, membership via `List.contains`).
* Opaque identifiers (script ids, thread ids) are modelled as `Nat`;
  string-valued protocol fields keep `String`.
* The cooperative event loop is modelled by explicit state passing:
  each asynchronous handler becomes a state-transition function and a
  run of the loop becomes a fold over a trace of events.
-/

namespace VsCodeJsDebug

/-! ## WebSocketTransport (src/cdp/webSocketTransport.ts) -/

/-- `webSocketTransport.ts:28`: `const isSecure = !url.startsWith('ws://');` -/
def wsIsSecure (url : String) : Bool :=
  !(url.startsWith "ws://")

/-- `webSocketTransport.ts:37`: the `rejectUnauthorized` option passed to the
`WebSocket` constructor: `rejectUnauthorized: !(isSecure && targetAddressIsLoopback)`.
`targetAddressIsLoopback` is the result of the external `isLoopback(url)` check,
taken here as a boolean parameter. -/
def rejectUnauthorized (url : String) (targetAddressIsLoopback : Bool) : Bool :=
  !(wsIsSecure url && targetAddressIsLoopback)

/-- State of a `WebSocketTransport` instance: `ws = true` models a live
`_ws` handle, `ws = false` models `_ws === undefined`; `sentFrames` records
every frame actually written to the socket. -/
structure WsTransportState where
  ws : Bool
  sentFrames : List String
  deriving Repr, DecidableEq

/-- `webSocketTransport.ts:65-68`: the `close` listener fires the end emitter and
clears the live handle (`this._ws = undefined`). -/
def wsOnClose (st : WsTransportState) : WsTransportState :=
  { st with ws := false }

/-- `webSocketTransport.ts:77-79`: `send(message) { this._ws?.send(message); }` —
the optional-chaining call writes a frame only when the handle is live,
and cannot throw. -/
def wsSend (st : WsTransportState) (message : String) : WsTransportState :=
  if st.ws then { st with sentFrames := st.sentFrames ++ [message] } else st

/-- `webSocketTransport.ts:84-93`: `dispose` resolves immediately when `_ws` is
already cleared, and otherwise closes the socket and resolves only after the
`close` event has fired — at which point the close listener above has cleared
`_ws`.  In both cases the state after `dispose` has completed has no live
handle. -/
def wsDispose (st : WsTransportState) : WsTransportState :=
  if st.ws then wsOnClose st else st

/-! ## ThreadManager custom breakpoints (src/thread.ts:298-320, 490-491) -/

/-- JavaScript `Set.prototype.add`: insert at the end when absent, no-op when
already present.  Models `this._customBreakpoints.add(id)`. -/
def setAdd (s : List String) (x : String) : List String :=
  if s.contains x then s else s ++ [x]

/-- `thread.ts:298-306` (`ThreadManager.enableCustomBreakpoints`): for each id,
`this._customBreakpoints.add(id)`; the per-thread broadcast
`thread.updateCustomBreakpoint(id, true)` touches no manager state, so the
manager's enabled set after the call is this fold. -/
def enableCustomBreakpoints (s : List String) (ids : List String) : List String :=
  ids.foldl setAdd s

/-- `thread.ts:308-316` (`ThreadManager.disableCustomBreakpoints`): the body is
identical to the enable path — for each id it executes
`this._customBreakpoints.add(id)` (an insertion, not a deletion) and broadcasts
`thread.updateCustomBreakpoint(id, false)` to the live threads. -/
def disableCustomBreakpoints (s : List String) (ids : List String) : List String :=
  ids.foldl setAdd s

/-- `thread.ts:490-491` (`Thread.initialize`): the loop
`for (const id of this.manager.customBreakpoints()) this.updateCustomBreakpoint(id, true);`
— the list of `updateCustomBreakpoint` calls a freshly initialized thread
issues, one `(id, enabled := true)` pair per enabled id, in set order. -/
def initializeCustomBreakpointCalls (enabled : List String) : List (String × Bool) :=
  enabled.map (fun id => (id, true))

/-! ## Script registration and shared-Source release (src/thread.ts:768-814) -/

/-- The state of one shared `Source` as `_removeAllScripts` sees it:
`scriptSet` is the source's back-reference set `source[kScriptsSymbol]`
(script ids, insertion order), `removeSourceCalls` counts the calls made to
the external `sourceContainer.removeSource(source)`. -/
structure SourceRefState where
  scriptSet : List Nat
  removeSourceCalls : Nat
  deriving Repr, DecidableEq

/-- One iteration of the loop in `thread.ts:768-777` (`_removeAllScripts`), for
scripts that all reference the one source under consideration:
`set.delete(script); if (!set.size) this.sourceContainer.removeSource(...)`.
JavaScript `Set.delete` removes the one matching element; on a duplicate-free
list this is `List.erase`. -/
def removeScriptStep (st : SourceRefState) (sid : Nat) : SourceRefState :=
  let s := st.scriptSet.erase sid
  { scriptSet := s
    removeSourceCalls := st.removeSourceCalls + (if s.isEmpty then 1 else 0) }

/-- The whole removal loop of `_removeAllScripts`, run over the thread's
script list (insertion order, i.e. `Array.from(this._scripts.values())`). -/
def removeScripts (scripts : List Nat) (st : SourceRefState) : SourceRefState :=
  scripts.foldl removeScriptStep st

/-! ## Thread disposal and reparenting (src/thread.ts:546-557) -/

/-- `Array.prototype.splice(i, 1)`: remove the element at index `i`.
(`Thread.dispose` always calls it with the index of `this` in the parent's
child list, which exists because the constructor pushed `this` there.) -/
def spliceOut (l : List Nat) (i : Nat) : List Nat :=
  l.take i ++ l.drop (i + 1)

/-- `thread.ts:546-550` (`Thread.dispose`), the effect on the parent's
`_childThreads` array when `this.parentThread` exists:
`parent._childThreads.splice(parent._childThreads.indexOf(this), 1);`
then `parent._childThreads.push(...this._childThreads);` — the disposed
thread's children are appended at the end. Threads are identified by their
ids. -/
def disposeReparent (pChildren : List Nat) (t : Nat) (tChildren : List Nat) :
    List Nat :=
  spliceOut pChildren (pChildren.indexOf t) ++ tChildren

/-- The reparenting as the specification words it ("splice this Thread's own
children into the parent's child list at the same position"): the children
are inserted at the slot the disposed thread occupied. Stated from the spec,
for comparison with `disposeReparent` above. -/
def disposeReparentSpec (pChildren : List Nat) (t : Nat) (tChildren : List Nat) :
    List Nat :=
  pChildren.take (pChildren.indexOf t) ++ tChildren ++
    pChildren.drop (pChildren.indexOf t + 1)

/-! ## Paused-event handling (src/thread.ts:468-495, 622-690, 816-831) -/

/-- The fields of a `Cdp.Debugger.PausedEvent` that `_createPausedDetails` and
the `paused` listener inspect. `data` is `event.data`: `none` when absent;
when present, `eventName` models `data['eventName']` (`none` when that key is
absent or empty, both falsy in the source's `data['eventName'] || ''`).
`hitBreakpoints` models `event.hitBreakpoints` with absence and `[]` merged
(both falsy in `event.hitBreakpoints && event.hitBreakpoints.length`). -/
structure CdpPausedEvent where
  reason : String
  hitBreakpoints : List String := []
  dataPresent : Bool := false
  dataEventName : Option String := none
  deriving Repr, DecidableEq

/-- The client-facing pause description produced by `_createPausedDetails`
(the `stackTrace` field is built by the external `StackTrace.fromDebugger`
and is not modelled). `description` strings are the default-locale texts of
the `localize(...)` calls. -/
structure PausedDetailsModel where
  reason : String
  description : String
  text : Option String := none
  hasException : Bool := false
  deriving Repr, DecidableEq

/-- `thread.ts:681-690` (`_resolveEventListenerBreakpointDetails`): look the
event name up in the external custom-breakpoint catalog (modelled as a
function to an optional `(short, long)` description pair); a hit yields the
catalog's descriptions, a miss the generic event-listener description. -/
def resolveEventListenerBreakpointDetails
    (catalog : String → Option (String × String)) (ev : CdpPausedEvent) :
    PausedDetailsModel :=
  let id := if ev.dataPresent then ev.dataEventName.getD "" else ""
  match catalog id with
  | some details =>
      { reason := "function breakpoint", description := details.1,
        text := some details.2 }
  | none =>
      { reason := "function breakpoint",
        description := "Paused on event listener" }

/-- `thread.ts:622-679` (`_createPausedDetails`): the `switch (event.reason)`
mapping a raw pause cause to a client-facing `{reason, description}` pair.
The default branch distinguishes a non-empty `hitBreakpoints` list. -/
def createPausedDetails (catalog : String → Option (String × String))
    (ev : CdpPausedEvent) : PausedDetailsModel :=
  if ev.reason = "assert" then
    { reason := "exception", description := "Paused on assert" }
  else if ev.reason = "debugCommand" then
    { reason := "pause", description := "Paused on debug() call" }
  else if ev.reason = "DOM" then
    { reason := "data breakpoint", description := "Paused on DOM breakpoint" }
  else if ev.reason = "EventListener" then
    resolveEventListenerBreakpointDetails catalog ev
  else if ev.reason = "exception" then
    { reason := "exception", description := "Paused on exception",
      hasException := ev.dataPresent }
  else if ev.reason = "promiseRejection" then
    { reason := "exception", description := "Paused on promise rejection" }
  else if ev.reason = "instrumentation" then
    { reason := "function breakpoint",
      description := "Paused on instrumentation breakpoint" }
  else if ev.reason = "XHR" then
    { reason := "data breakpoint",
      description := "Paused on XMLHttpRequest or fetch" }
  else if ev.reason = "OOM" then
    { reason := "exception",
      description := "Paused before Out Of Memory exception" }
  else if ev.hitBreakpoints.isEmpty then
    { reason := "step", description := "Paused" }
  else
    { reason := "breakpoint", description := "Paused on breakpoint" }

/-- The raw causes enumerated by the `switch` in `_createPausedDetails`. -/
def enumeratedPauseReasons : List String :=
  ["assert", "debugCommand", "DOM", "EventListener", "exception",
   "promiseRejection", "instrumentation", "XHR", "OOM"]

/-! ### Source-map gated pause (`_handleSourceMapPause`, thread.ts:816-831) -/

/-- Outcome of the `Promise.race` in `thread.ts:821-824` between
`waitForSourceMapSources(script.source)` and the `scriptPaused` timeout
promise: either the resolution completed first (with a — possibly empty —
source list) or the timeout fired first (the race then resolves with `[]`). -/
inductive SourceMapRaceOutcome where
  | resolved (sources : List Nat)
  | timedOut
  deriving Repr, DecidableEq

/-- Externally observable effects of handling one `Debugger.paused` event:
how many client-facing `stopped` events were sent (`_reportPaused`), how many
`Debugger.resume` commands were issued to the target, and how many times the
registered script-with-source-map handler was invoked. -/
structure PauseEffects where
  stoppedEvents : Nat
  resumeCalls : Nat
  handlerCalls : Nat
  deriving Repr, DecidableEq

/-- `thread.ts:816-831` (`_handleSourceMapPause`): when the scriptId is known,
race the source-map resolution against the `scriptPaused` timeout; `sources`
is then always a (possibly empty) array, which is truthy in JavaScript, so
`if (sources && this.manager._scriptWithSourceMapHandler)` invokes the handler
exactly when one is registered; when the scriptId is unknown the body is
skipped. Every path falls through to `this._cdp.Debugger.resume({})`, and none
calls `_reportPaused`. -/
def handleSourceMapPause (scriptKnown : Bool) (outcome : SourceMapRaceOutcome)
    (handlerRegistered : Bool) : PauseEffects :=
  if scriptKnown then
    let _sources : List Nat :=
      match outcome with
      | .resolved s => s
      | .timedOut => []
    { stoppedEvents := 0, resumeCalls := 1,
      handlerCalls := if handlerRegistered then 1 else 0 }
  else
    { stoppedEvents := 0, resumeCalls := 1, handlerCalls := 0 }

/-- `thread.ts:468-476`: the `Debugger.on('paused')` listener. A pause with
`event.reason === 'instrumentation' && event.data && event.data['scriptId']`
is diverted to `_handleSourceMapPause` and the listener returns; every other
pause stores the details and reports a client-visible stop (`_reportPaused`).
`dataScriptId` models `event.data['scriptId']` (`none` when `event.data` is
absent or carries no scriptId); `scriptKnown`, `outcome` and
`handlerRegistered` parametrize the environment `_handleSourceMapPause` then
runs in. -/
def onDebuggerPaused (reason : String) (dataScriptId : Option Nat)
    (scriptKnown : Bool) (outcome : SourceMapRaceOutcome)
    (handlerRegistered : Bool) : PauseEffects :=
  match dataScriptId with
  | some _ =>
      if reason = "instrumentation" then
        handleSourceMapPause scriptKnown outcome handlerRegistered
      else
        { stoppedEvents := 1, resumeCalls := 0, handlerCalls := 0 }
  | none => { stoppedEvents := 1, resumeCalls := 0, handlerCalls := 0 }

/-! ## Output-slot serialization (`claimOutputSlot`, src/thread.ts:497-517)

`claimOutputSlot` chains one promise per claimed slot onto
`this._serializedOutput`.  Slot `k`'s delivery function captures the chain as
it stood when slot `k` was claimed, i.e. a promise that resolves once the
completion callbacks of all slots `j < k` have been called; when the caller
invokes the delivery function it awaits that promise, emits its payload, and
calls its own completion callback.  Independently, `setTimeout` calls the
same completion callback after the configured `output` timeout (resolving a
promise twice is a no-op).

The embedding makes the promise graph explicit.  Slots are numbered `0,
1, …` in claim order (`nSlots` of them).  `invoked` records the slots whose
delivery function has been invoked, `completed` the slots whose completion
callback has fired, `emitted` — in emission order — the slots whose payload
has been written to the client via `this._dap.output`.  A slot `k` can emit
exactly when its delivery was invoked, it has not already emitted, and every
`j < k` has completed (the captured chain has resolved); emitting also
completes it.  After each external event the event loop drains all enabled
emissions, in increasing slot order — which is the order in which the nested
`.then` chain resolves the captured promises. -/

/-- The microtask state of one thread's serialized output. -/
structure OutputState where
  nSlots : Nat
  invoked : List Nat
  completed : List Nat
  emitted : List Nat
  deriving Repr, DecidableEq

/-- Slot `k`'s delivery body is enabled: the delivery function has been
invoked, the payload has not yet been emitted, and the promise chain captured
at claim time — completion of every earlier slot — has resolved. -/
def canEmit (st : OutputState) (k : Nat) : Bool :=
  st.invoked.contains k && !st.emitted.contains k &&
    (List.range k).all (fun j => st.completed.contains j)

/-- Running slot `k`'s delivery body once its captured chain has resolved:
`this._dap.output(payload)` (record `k` in `emitted`) then `callback()`
(record `k` in `completed`). -/
def emitSlot (st : OutputState) (k : Nat) : OutputState :=
  { st with emitted := st.emitted ++ [k], completed := k :: st.completed }

/-- Drain the microtask queue: repeatedly run the lowest-numbered enabled
delivery body.  `fuel` bounds the recursion; `nSlots` steps always suffice
because each step emits a distinct slot. -/
def flushOutput : OutputState → Nat → OutputState
  | st, 0 => st
  | st, fuel + 1 =>
      match (List.range st.nSlots).find? (canEmit st) with
      | none => st
      | some k => flushOutput (emitSlot st k) fuel

/-- External events that drive the output machinery: a caller invokes slot
`k`'s delivery function, or slot `k`'s `setTimeout` fires its completion
callback directly (`thread.ts:515`), completing the slot without emitting. -/
inductive OutputEvent where
  | invoke (k : Nat)
  | timeout (k : Nat)
  deriving Repr, DecidableEq

/-- One external event followed by a full microtask drain. -/
def stepOutput (st : OutputState) (e : OutputEvent) : OutputState :=
  match e with
  | .invoke k => flushOutput { st with invoked := k :: st.invoked } st.nSlots
  | .timeout k => flushOutput { st with completed := k :: st.completed } st.nSlots

/-- The state after claiming `n` slots: `this._serializedOutput` starts as
`Promise.resolve()`, so nothing is invoked, completed or emitted. -/
def initOutput (n : Nat) : OutputState :=
  { nSlots := n, invoked := [], completed := [], emitted := [] }

/-- Run a trace of external events against `n` claimed slots. -/
def runOutput (n : Nat) (tr : List OutputEvent) : OutputState :=
  tr.foldl stepOutput (initOutput n)

/-- Whether an event is a delivery-function invocation. -/
def OutputEvent.isInvoke : OutputEvent → Bool
  | .invoke _ => true
  | .timeout _ => false

/-- Well-formedness of an output state: payloads are emitted at most once per
slot, only for claimed slots, and an emitted slot has completed. -/
def OutWF (st : OutputState) : Prop :=
  st.emitted.Nodup ∧ (∀ x ∈ st.emitted, x < st.nSlots) ∧
    ∀ x ∈ st.emitted, x ∈ st.completed

/-- The microtask queue is drained: no delivery body is enabled. -/
def noEmittable (st : OutputState) : Prop :=
  ∀ k, k < st.nSlots → canEmit st k = false

/-! ## Theorems -/

/-- C7: For every connection URL, `WebSocketTransport.create` bypasses
certificate validation (`rejectUnauthorized` false) if and only if the
connection is secure (URL not starting with `ws://`) and the target address is
a loopback address; for every non-loopback secure target, certificate
validation is enforced. -/
theorem rejectUnauthorized_bypass_iff_secure_loopback
    (url : String) (targetAddressIsLoopback : Bool) :
    rejectUnauthorized url targetAddressIsLoopback = false ↔
      (wsIsSecure url = true ∧ targetAddressIsLoopback = true) := by
  cases h : wsIsSecure url <;> cases targetAddressIsLoopback <;>
    simp [rejectUnauthorized, h]

/-- C10: For every `WebSocketTransport`, calling `send(message)` after the
`close` event has fired (or after `dispose` has completed) is a safe no-op:
the live handle is cleared on close, so the send is total (no exception) and
writes no frame — the state, in particular the list of sent frames, is
unchanged. -/
theorem send_after_close_is_noop (st : WsTransportState) (message : String) :
    wsSend (wsOnClose st) message = wsOnClose st ∧
      wsSend (wsDispose st) message = wsDispose st := by
  cases st with
  | mk ws sent => cases ws <;> simp [wsSend, wsOnClose, wsDispose]

/-- C3: the claim states that after `ThreadManager.disableCustomBreakpoints([id])`
returns, `id` is not a member of the manager's enabled custom-breakpoint set.
The source (`thread.ts:311`) instead executes `this._customBreakpoints.add(id)`
on the disable path — the same insertion as the enable path — while
broadcasting `updateCustomBreakpoint(id, false)` to the threads.  Evaluated at
the failing input (empty enabled set, disable of `"x"`), the id ends up
a member of the enabled set. -/
theorem disableCustomBreakpoints_inserts :
    disableCustomBreakpoints [] ["x"] = ["x"] ∧
      "x" ∈ disableCustomBreakpoints [] ["x"] := by
  constructor <;> simp [disableCustomBreakpoints, setAdd]

theorem removeScripts_append (l₁ l₂ : List Nat) (c : Nat) (h₂ : l₂ ≠ []) :
    removeScripts l₁ ⟨l₁ ++ l₂, c⟩ = ⟨l₂, c⟩ := by
  induction l₁ generalizing c with
  | nil => simp [removeScripts]
  | cons a t ih =>
      have hstep : removeScriptStep ⟨(a :: t) ++ l₂, c⟩ a =
          ⟨t ++ l₂, c⟩ := by
        have hne : (t ++ l₂).isEmpty = false := by
          rcases l₂ with _ | ⟨x, l₂'⟩
          · exact absurd rfl h₂
          · simp
        simp [removeScriptStep, List.erase_cons_head, hne]
      show removeScripts t (removeScriptStep ⟨(a :: t) ++ l₂, c⟩ a) = _
      rw [hstep]
      exact ih c

theorem removeScripts_self (l : List Nat) (c : Nat) (hl : l ≠ []) :
    removeScripts l ⟨l, c⟩ = ⟨[], c + 1⟩ := by
  induction l generalizing c with
  | nil => exact absurd rfl hl
  | cons a t ih =>
      rcases t with _ | ⟨b, t'⟩
      · simp [removeScripts, removeScriptStep, List.erase_cons_head]
      · have hstep : removeScriptStep ⟨a :: (b :: t'), c⟩ a =
            ⟨b :: t', c⟩ := by
          simp [removeScriptStep, List.erase_cons_head]
        show removeScripts (b :: t')
            (removeScriptStep ⟨a :: (b :: t'), c⟩ a) = _
        rw [hstep]
        exact ih c (by simp)

/-- C2: For every Thread whose `N` registered scripts all share one `Source`,
removing the scripts one at a time (the loop of `_removeAllScripts`, run over
the thread's script list `l` with the source's back-reference set holding
exactly those scripts) calls the external registry's `removeSource` exactly
once, and only when the last (`N`-th) referencing script is removed: after any
proper prefix of the removals the set is still non-empty and `removeSource`
has not been called, and after all `N` removals the set is empty and
`removeSource` has been called exactly once. -/
theorem sharedSource_released_exactly_on_last_script
    (l : List Nat) (hl : l ≠ []) :
    removeScripts l ⟨l, 0⟩ = ⟨[], 1⟩ ∧
      ∀ j < l.length,
        removeScripts (l.take j) ⟨l, 0⟩ = ⟨l.drop j, 0⟩ ∧ l.drop j ≠ [] := by
  constructor
  · exact removeScripts_self l 0 hl
  · intro j hj
    have hd : l.drop j ≠ [] := by
      intro h
      have := List.length_drop j l
      rw [h] at this
      simp at this
      omega
    have h := removeScripts_append (l.take j) (l.drop j) 0 hd
    rw [List.take_append_drop] at h
    rw [h]
    simp [hd]

/-- C2 witness: three scripts sharing one source. -/
theorem sharedSource_released_exactly_on_last_script_witness :
    ([1, 2, 3] : List Nat) ≠ [] ∧
      (removeScripts [1, 2, 3] ⟨[1, 2, 3], 0⟩ = ⟨[], 1⟩ ∧
        ∀ j < ([1, 2, 3] : List Nat).length,
          removeScripts (([1, 2, 3] : List Nat).take j) ⟨[1, 2, 3], 0⟩ =
              ⟨([1, 2, 3] : List Nat).drop j, 0⟩ ∧
            ([1, 2, 3] : List Nat).drop j ≠ []) :=
  ⟨by decide, sharedSource_released_exactly_on_last_script [1, 2, 3] (by decide)⟩

theorem not_mem_spliceOut_indexOf (p : List Nat) (t : Nat)
    (hnd : p.Nodup) (hmem : t ∈ p) : t ∉ spliceOut p (p.indexOf t) := by
  induction p with
  | nil => simp at hmem
  | cons a rest ih =>
      by_cases hta : t = a
      · subst hta
        rw [List.indexOf_cons_self]
        have : spliceOut (t :: rest) 0 = rest := by simp [spliceOut]
        rw [this]
        exact (List.nodup_cons.mp hnd).1
      · have hne : a ≠ t := fun h => hta h.symm
        rw [List.indexOf_cons_ne rest hne]
        have : spliceOut (a :: rest) (rest.indexOf t + 1) =
            a :: spliceOut rest (rest.indexOf t) := by
          simp [spliceOut]
        rw [this]
        intro hc
        rcases List.mem_cons.mp hc with h | h
        · exact hta h
        · have hmem' : t ∈ rest := by
            rcases List.mem_cons.mp hmem with h' | h'
            · exact absurd h' hta
            · exact h'
          exact ih (List.nodup_cons.mp hnd).2 hmem' h

/-- C4 counterexample: with parent child list `[1, 2]`, disposing thread `1`
(whose children are `[3]`) yields `[2, 3]` — the children are pushed at the
end — whereas splicing them in at the position thread `1` occupied, as the
claim states, would yield `[3, 2]`. -/
theorem dispose_reparent_counterexample :
    disposeReparent [1, 2] 1 [3] = [2, 3] ∧
      disposeReparentSpec [1, 2] 1 [3] = [3, 2] ∧
      disposeReparent [1, 2] 1 [3] ≠ disposeReparentSpec [1, 2] 1 [3] := by
  decide

/-- C4 (amended): For every Thread `T` with a parent `P` and a non-empty child
list, after `T.dispose()` every former child of `T` is a member of `P`'s child
list, `T` itself is removed from `P`'s child list, and the children are
appended at the end of `P`'s child list (not at the position `T` occupied),
preserving their original relative order (they form a suffix). -/
theorem dispose_reparent_appends_children
    (p : List Nat) (t : Nat) (c : List Nat)
    (hmem : t ∈ p) (hnd : p.Nodup) (htc : t ∉ c) :
    (∀ x ∈ c, x ∈ disposeReparent p t c) ∧
      c <:+ disposeReparent p t c ∧
      t ∉ disposeReparent p t c := by
  refine ⟨?_, ?_, ?_⟩
  · intro x hx
    exact List.mem_append.mpr (Or.inr hx)
  · exact List.suffix_append _ c
  · intro hc
    rcases List.mem_append.mp hc with h | h
    · exact not_mem_spliceOut_indexOf p t hnd hmem h
    · exact htc h

/-- C4 witness: parent child list `[1, 2]`, disposed thread `1`, children `[3]`. -/
theorem dispose_reparent_appends_children_witness :
    (1 ∈ ([1, 2] : List Nat) ∧ ([1, 2] : List Nat).Nodup ∧
        1 ∉ ([3] : List Nat)) ∧
      ((∀ x ∈ ([3] : List Nat), x ∈ disposeReparent [1, 2] 1 [3]) ∧
        ([3] : List Nat) <:+ disposeReparent [1, 2] 1 [3] ∧
        1 ∉ disposeReparent [1, 2] 1 [3]) :=
  ⟨⟨by decide, by decide, by decide⟩,
    dispose_reparent_appends_children [1, 2] 1 [3] (by decide) (by decide)
      (by decide)⟩

/-- C6: For every gated source-map pause (a `paused` event with reason
`instrumentation` carrying a scriptId), the Thread does not surface a
client-visible `stopped` event and issues exactly one `Debugger.resume`
command to the target, on every path: whether the script is unknown, the
source-map resolution succeeds (any source list), fails (empty list), or the
configured `scriptPaused` timeout elapses first. -/
theorem gated_pause_never_surfaces_and_resumes_once
    (sid : Nat) (scriptKnown : Bool) (outcome : SourceMapRaceOutcome)
    (handlerRegistered : Bool) :
    (onDebuggerPaused "instrumentation" (some sid) scriptKnown outcome
        handlerRegistered).stoppedEvents = 0 ∧
      (onDebuggerPaused "instrumentation" (some sid) scriptKnown outcome
        handlerRegistered).resumeCalls = 1 := by
  cases scriptKnown <;> cases outcome <;> cases handlerRegistered <;>
    simp [onDebuggerPaused, handleSourceMapPause]

theorem mem_setAdd_self (s : List String) (x : String) : x ∈ setAdd s x := by
  unfold setAdd
  split
  case isTrue h => simpa using h
  case isFalse h => exact List.mem_append.mpr (Or.inr (by simp))

theorem mem_setAdd_of_mem (s : List String) (x y : String) (h : x ∈ s) :
    x ∈ setAdd s y := by
  unfold setAdd
  split
  · exact h
  · exact List.mem_append.mpr (Or.inl h)

theorem mem_foldl_setAdd_of_mem (ids : List String) (s : List String)
    (x : String) (h : x ∈ s) : x ∈ ids.foldl setAdd s := by
  induction ids generalizing s with
  | nil => exact h
  | cons a t ih => exact ih (setAdd s a) (mem_setAdd_of_mem s x a h)

theorem mem_foldl_setAdd (ids : List String) (s : List String) (x : String)
    (h : x ∈ ids) : x ∈ ids.foldl setAdd s := by
  induction ids generalizing s with
  | nil => simp at h
  | cons a t ih =>
      rcases List.mem_cons.mp h with rfl | h'
      · exact mem_foldl_setAdd_of_mem t (setAdd s x) x (mem_setAdd_self s x)
      · exact ih (setAdd s a) h'

/-- C8: For every custom-breakpoint id in the manager's enabled set at the
time a Thread is created and initialized, that Thread issues
`updateCustomBreakpoint(id, true)` during initialization; in particular,
enabling an id before any Thread exists (`enableCustomBreakpoints` on the
empty set, with no threads to broadcast to) and then creating a Thread results
in that Thread applying the breakpoint. -/
theorem enabled_breakpoints_applied_on_thread_init
    (enabled ids : List String) (id : String) :
    (id ∈ enabled → (id, true) ∈ initializeCustomBreakpointCalls enabled) ∧
      (id ∈ ids →
        (id, true) ∈
          initializeCustomBreakpointCalls (enableCustomBreakpoints [] ids)) := by
  constructor
  · intro h
    exact List.mem_map_of_mem _ h
  · intro h
    exact List.mem_map_of_mem _ (mem_foldl_setAdd ids [] id h)

/-- C8 witness: enable `"x"` with no thread alive, then initialize a thread. -/
theorem enabled_breakpoints_applied_on_thread_init_witness :
    ("x", true) ∈ initializeCustomBreakpointCalls ["x"] ∧
      ("x", true) ∈
        initializeCustomBreakpointCalls (enableCustomBreakpoints [] ["x"]) :=
  ⟨(enabled_breakpoints_applied_on_thread_init ["x"] ["x"] "x").1 (by decide),
    (enabled_breakpoints_applied_on_thread_init ["x"] ["x"] "x").2 (by decide)⟩

/-- C9 counterexample: a paused event whose raw cause (`"other"`) matches none
of the enumerated causes but which carries a hit breakpoint — a plain
breakpoint hit without a more specific cause — yields reason `"breakpoint"`
and description `"Paused on breakpoint"`, not reason `"step"` and description
`"Paused"` as the claim states. -/
theorem plain_breakpoint_hit_is_not_step :
    createPausedDetails (fun _ => none)
        { reason := "other", hitBreakpoints := ["bp1"] } =
      { reason := "breakpoint", description := "Paused on breakpoint" } ∧
      (createPausedDetails (fun _ => none)
          { reason := "other", hitBreakpoints := ["bp1"] }).reason ≠ "step" := by
  constructor <;> decide

/-- C9 (amended): For every paused event whose raw cause matches none of the
enumerated causes (assert, debugCommand, DOM, EventListener, exception,
promiseRejection, instrumentation, XHR, OOM), `_createPausedDetails` returns
reason `"step"` and description `"Paused"` when the event carries no hit
breakpoints, and reason `"breakpoint"` and description
`"Paused on breakpoint"` when it does. -/
theorem unmatched_pause_reason_defaults
    (catalog : String → Option (String × String)) (ev : CdpPausedEvent)
    (h : ev.reason ∉ enumeratedPauseReasons) :
    (ev.hitBreakpoints = [] →
        createPausedDetails catalog ev =
          { reason := "step", description := "Paused" }) ∧
      (ev.hitBreakpoints ≠ [] →
        createPausedDetails catalog ev =
          { reason := "breakpoint", description := "Paused on breakpoint" }) := by
  simp only [enumeratedPauseReasons, List.mem_cons, List.mem_singleton,
    not_or] at h
  obtain ⟨h1, h2, h3, h4, h5, h6, h7, h8, h9⟩ := h
  constructor
  · intro hb
    simp [createPausedDetails, h1, h2, h3, h4, h5, h6, h7, h8, h9, hb]
  · intro hb
    have hbe : ev.hitBreakpoints.isEmpty = false := by
      rcases hx : ev.hitBreakpoints with _ | ⟨b, bs⟩
      · exact absurd hx hb
      · simp
    simp [createPausedDetails, h1, h2, h3, h4, h5, h6, h7, h8, h9, hbe]

/-- C9 witness: raw cause `"other"` with no hit breakpoints gives
`"step"`/`"Paused"`; with a hit breakpoint it gives
`"breakpoint"`/`"Paused on breakpoint"`. -/
theorem unmatched_pause_reason_defaults_witness :
    (("other" : String) ∉ enumeratedPauseReasons) ∧
      createPausedDetails (fun _ => none) { reason := "other" } =
        { reason := "step", description := "Paused" } ∧
      createPausedDetails (fun _ => none)
          { reason := "other", hitBreakpoints := ["bp1"] } =
        { reason := "breakpoint", description := "Paused on breakpoint" } :=
  ⟨by decide,
    (unmatched_pause_reason_defaults (fun _ => none) { reason := "other" }
        (by decide)).1 rfl,
    (unmatched_pause_reason_defaults (fun _ => none)
        { reason := "other", hitBreakpoints := ["bp1"] } (by decide)).2
      (by decide)⟩

/-! ### Output-slot lemmas -/

theorem canEmit_iff (st : OutputState) (k : Nat) :
    canEmit st k = true ↔
      k ∈ st.invoked ∧ k ∉ st.emitted ∧ ∀ j, j < k → j ∈ st.completed := by
  simp [canEmit, List.all_eq_true, List.mem_range, and_assoc]

theorem flushOutput_nSlots (fuel : Nat) : ∀ st : OutputState,
    (flushOutput st fuel).nSlots = st.nSlots := by
  induction fuel with
  | zero => intro st; rfl
  | succ f ih =>
      intro st
      unfold flushOutput
      cases hf : (List.range st.nSlots).find? (canEmit st) with
      | none => rfl
      | some k => rw [ih]; rfl

theorem flushOutput_invoked (fuel : Nat) : ∀ st : OutputState,
    (flushOutput st fuel).invoked = st.invoked := by
  induction fuel with
  | zero => intro st; rfl
  | succ f ih =>
      intro st
      unfold flushOutput
      cases hf : (List.range st.nSlots).find? (canEmit st) with
      | none => rfl
      | some k => rw [ih]; rfl

theorem mem_completed_flushOutput (fuel : Nat) : ∀ (st : OutputState) (x : Nat),
    x ∈ st.completed → x ∈ (flushOutput st fuel).completed := by
  induction fuel with
  | zero => intro st x h; exact h
  | succ f ih =>
      intro st x h
      unfold flushOutput
      cases hf : (List.range st.nSlots).find? (canEmit st) with
      | none => exact h
      | some k => exact ih _ x (List.mem_cons.mpr (Or.inr h))

theorem mem_emitted_flushOutput (fuel : Nat) : ∀ (st : OutputState) (x : Nat),
    x ∈ st.emitted → x ∈ (flushOutput st fuel).emitted := by
  induction fuel with
  | zero => intro st x h; exact h
  | succ f ih =>
      intro st x h
      unfold flushOutput
      cases hf : (List.range st.nSlots).find? (canEmit st) with
      | none => exact h
      | some k => exact ih _ x (List.mem_append.mpr (Or.inl h))

theorem mem_invoked_stepOutput (st : OutputState) (e : OutputEvent) (x : Nat)
    (h : x ∈ st.invoked) : x ∈ (stepOutput st e).invoked := by
  cases e with
  | invoke k =>
      show x ∈ (flushOutput { st with invoked := k :: st.invoked } st.nSlots).invoked
      rw [flushOutput_invoked]
      exact List.mem_cons.mpr (Or.inr h)
  | timeout k =>
      show x ∈ (flushOutput { st with completed := k :: st.completed } st.nSlots).invoked
      rw [flushOutput_invoked]
      exact h

theorem mem_completed_stepOutput (st : OutputState) (e : OutputEvent) (x : Nat)
    (h : x ∈ st.completed) : x ∈ (stepOutput st e).completed := by
  cases e with
  | invoke k => exact mem_completed_flushOutput _ _ x h
  | timeout k =>
      exact mem_completed_flushOutput _ _ x (List.mem_cons.mpr (Or.inr h))

theorem mem_emitted_stepOutput (st : OutputState) (e : OutputEvent) (x : Nat)
    (h : x ∈ st.emitted) : x ∈ (stepOutput st e).emitted := by
  cases e with
  | invoke k => exact mem_emitted_flushOutput _ _ x h
  | timeout k => exact mem_emitted_flushOutput _ _ x h

theorem mem_invoked_foldl (tr : List OutputEvent) : ∀ (st : OutputState) (x : Nat),
    x ∈ st.invoked → x ∈ (tr.foldl stepOutput st).invoked := by
  induction tr with
  | nil => intro st x h; exact h
  | cons e t ih => intro st x h; exact ih _ x (mem_invoked_stepOutput st e x h)

theorem mem_completed_foldl (tr : List OutputEvent) : ∀ (st : OutputState) (x : Nat),
    x ∈ st.completed → x ∈ (tr.foldl stepOutput st).completed := by
  induction tr with
  | nil => intro st x h; exact h
  | cons e t ih => intro st x h; exact ih _ x (mem_completed_stepOutput st e x h)

theorem invoke_mem_foldl (tr : List OutputEvent) : ∀ (st : OutputState) (k : Nat),
    OutputEvent.invoke k ∈ tr → k ∈ (tr.foldl stepOutput st).invoked := by
  induction tr with
  | nil => intro st k h; simp at h
  | cons e t ih =>
      intro st k h
      rcases List.mem_cons.mp h with heq | hmem
      · rw [← heq]
        show k ∈ (List.foldl stepOutput (stepOutput st (.invoke k)) t).invoked
        apply mem_invoked_foldl
        have h1 : (stepOutput st (.invoke k)).invoked = k :: st.invoked := by
          show (flushOutput { st with invoked := k :: st.invoked }
            st.nSlots).invoked = _
          rw [flushOutput_invoked]
        rw [h1]
        exact List.mem_cons.mpr (Or.inl rfl)
      · exact ih _ k hmem

theorem timeout_mem_foldl (tr : List OutputEvent) : ∀ (st : OutputState) (k : Nat),
    OutputEvent.timeout k ∈ tr → k ∈ (tr.foldl stepOutput st).completed := by
  induction tr with
  | nil => intro st k h; simp at h
  | cons e t ih =>
      intro st k h
      rcases List.mem_cons.mp h with heq | hmem
      · rw [← heq]
        show k ∈ (List.foldl stepOutput (stepOutput st (.timeout k)) t).completed
        apply mem_completed_foldl
        show k ∈ (flushOutput { st with completed := k :: st.completed }
          st.nSlots).completed
        exact mem_completed_flushOutput _ _ k (List.mem_cons.mpr (Or.inl rfl))
      · exact ih _ k hmem

theorem outWF_emitSlot (st : OutputState) (k : Nat) (hwf : OutWF st)
    (hce : canEmit st k = true) (hk : k < st.nSlots) :
    OutWF (emitSlot st k) := by
  obtain ⟨hnd, hlt, hsub⟩ := hwf
  obtain ⟨-, hkne, -⟩ := (canEmit_iff st k).mp hce
  refine ⟨?_, ?_, ?_⟩
  · simp [emitSlot, List.nodup_append, hnd, hkne]
  · intro x hx
    rcases List.mem_append.mp hx with h | h
    · exact hlt x h
    · rw [List.mem_singleton] at h
      exact h ▸ hk
  · intro x hx
    rcases List.mem_append.mp hx with h | h
    · exact List.mem_cons.mpr (Or.inr (hsub x h))
    · rw [List.mem_singleton] at h
      exact List.mem_cons.mpr (Or.inl h)

theorem outWF_flushOutput (fuel : Nat) : ∀ st : OutputState,
    OutWF st → OutWF (flushOutput st fuel) := by
  induction fuel with
  | zero => intro st hwf; exact hwf
  | succ f ih =>
      intro st hwf
      unfold flushOutput
      cases hf : (List.range st.nSlots).find? (canEmit st) with
      | none => exact hwf
      | some k =>
          have hk : k < st.nSlots := by
            have := List.mem_of_find?_eq_some hf
            simpa [List.mem_range] using this
          exact ih _ (outWF_emitSlot st k hwf (List.find?_some hf) hk)

theorem outWF_stepOutput (st : OutputState) (e : OutputEvent) (hwf : OutWF st) :
    OutWF (stepOutput st e) := by
  obtain ⟨h1, h2, h3⟩ := hwf
  cases e with
  | invoke k => exact outWF_flushOutput _ _ ⟨h1, h2, h3⟩
  | timeout k =>
      exact outWF_flushOutput _ _
        ⟨h1, h2, fun x hx => List.mem_cons.mpr (Or.inr (h3 x hx))⟩

theorem outWF_foldl (tr : List OutputEvent) : ∀ st : OutputState,
    OutWF st → OutWF (tr.foldl stepOutput st) := by
  induction tr with
  | nil => intro st hwf; exact hwf
  | cons e t ih => intro st hwf; exact ih _ (outWF_stepOutput st e hwf)

theorem outWF_initOutput (n : Nat) : OutWF (initOutput n) :=
  ⟨List.nodup_nil, by simp [initOutput], by simp [initOutput]⟩

theorem flushOutput_quiescent (fuel : Nat) : ∀ st : OutputState, OutWF st →
    st.nSlots ≤ fuel + st.emitted.length → noEmittable (flushOutput st fuel) := by
  induction fuel with
  | zero =>
      intro st hwf hle k hk
      show canEmit st k = false
      by_contra hce
      rw [Bool.not_eq_false] at hce
      obtain ⟨-, hkne, -⟩ := (canEmit_iff st k).mp hce
      obtain ⟨hnd, hlt, -⟩ := hwf
      have hcard : st.emitted.toFinset.card = st.emitted.length :=
        List.toFinset_card_of_nodup hnd
      have hknn : k < st.nSlots := by
        have hns := flushOutput_nSlots 0 st
        rw [hns] at hk
        exact hk
      have hsub : st.emitted.toFinset ⊆ (Finset.range st.nSlots).erase k := by
        intro x hx
        rw [List.mem_toFinset] at hx
        rw [Finset.mem_erase, Finset.mem_range]
        exact ⟨fun hxk => hkne (hxk ▸ hx), hlt x hx⟩
      have hle' := Finset.card_le_card hsub
      rw [Finset.card_erase_of_mem (Finset.mem_range.mpr hknn),
        Finset.card_range] at hle'
      omega
  | succ f ih =>
      intro st hwf hle
      unfold flushOutput
      cases hf : (List.range st.nSlots).find? (canEmit st) with
      | none =>
          intro k hk
          exact Bool.not_eq_true _ ▸
            (by simpa using List.find?_eq_none.mp hf k (List.mem_range.mpr hk))
      | some k =>
          have hk : k < st.nSlots := by
            have := List.mem_of_find?_eq_some hf
            simpa [List.mem_range] using this
          apply ih
          · exact outWF_emitSlot st k hwf (List.find?_some hf) hk
          · simp only [emitSlot, List.length_append, List.length_singleton]
            omega

theorem stepOutput_quiescent (st : OutputState) (e : OutputEvent)
    (hwf : OutWF st) : noEmittable (stepOutput st e) := by
  obtain ⟨h1, h2, h3⟩ := hwf
  cases e with
  | invoke k =>
      exact flushOutput_quiescent _ _ ⟨h1, h2, h3⟩ (Nat.le_add_right _ _)
  | timeout k =>
      exact flushOutput_quiescent _ _
        ⟨h1, h2, fun x hx => List.mem_cons.mpr (Or.inr (h3 x hx))⟩
        (Nat.le_add_right _ _)

theorem stepOutput_nSlots (st : OutputState) (e : OutputEvent) :
    (stepOutput st e).nSlots = st.nSlots := by
  cases e with
  | invoke k =>
      show (flushOutput { st with invoked := k :: st.invoked } st.nSlots).nSlots = _
      rw [flushOutput_nSlots]
  | timeout k =>
      show (flushOutput { st with completed := k :: st.completed } st.nSlots).nSlots = _
      rw [flushOutput_nSlots]

theorem foldl_stepOutput_nSlots (tr : List OutputEvent) : ∀ st : OutputState,
    (tr.foldl stepOutput st).nSlots = st.nSlots := by
  induction tr with
  | nil => intro st; rfl
  | cons e t ih =>
      intro st
      show (t.foldl stepOutput (stepOutput st e)).nSlots = _
      rw [ih, stepOutput_nSlots]

theorem runOutput_nSlots (n : Nat) (tr : List OutputEvent) :
    (runOutput n tr).nSlots = n :=
  foldl_stepOutput_nSlots tr (initOutput n)

theorem runOutput_quiescent (n : Nat) (tr : List OutputEvent) (hne : tr ≠ []) :
    noEmittable (runOutput n tr) := by
  rcases List.eq_nil_or_concat tr with rfl | ⟨L, b, rfl⟩
  · exact absurd rfl hne
  · rw [runOutput, List.concat_eq_append, List.foldl_append]
    show noEmittable (stepOutput (L.foldl stepOutput (initOutput n)) b)
    exact stepOutput_quiescent _ b (outWF_foldl L (initOutput n) (outWF_initOutput n))

theorem flushOutput_prefixInv (fuel : Nat) : ∀ st : OutputState,
    (st.emitted = List.range st.emitted.length ∧
      ∀ j : Nat, j ∈ st.completed ↔ j ∈ st.emitted) →
    ((flushOutput st fuel).emitted =
        List.range (flushOutput st fuel).emitted.length ∧
      ∀ j : Nat, j ∈ (flushOutput st fuel).completed ↔
        j ∈ (flushOutput st fuel).emitted) := by
  induction fuel with
  | zero => intro st h; exact h
  | succ f ih =>
      intro st h
      obtain ⟨hpre, hiff⟩ := h
      unfold flushOutput
      cases hf : (List.range st.nSlots).find? (canEmit st) with
      | none => exact ⟨hpre, hiff⟩
      | some k =>
          apply ih
          obtain ⟨-, hkne, hall⟩ := (canEmit_iff st k).mp (List.find?_some hf)
          have hkm : k = st.emitted.length := by
            have h1 : ¬ st.emitted.length < k := by
              intro hmk
              have := (hiff st.emitted.length).mp (hall _ hmk)
              rw [hpre, List.mem_range, List.length_range] at this
              exact lt_irrefl _ this
            have h2 : ¬ k < st.emitted.length := by
              intro hlt
              exact hkne (by rw [hpre, List.mem_range]; exact hlt)
            omega
          constructor
          · show st.emitted ++ [k] = List.range (st.emitted ++ [k]).length
            rw [List.length_append, List.length_singleton, List.range_succ,
              ← hpre, hkm]
          · intro j
            show j ∈ k :: st.completed ↔ j ∈ st.emitted ++ [k]
            rw [List.mem_cons, List.mem_append, List.mem_singleton]
            have := hiff j
            tauto

/-- C1: For every Thread and every sequence of calls to `claimOutputSlot`, the
output payloads delivered via the returned delivery functions are emitted to
the client in the order the slots were claimed, regardless of the order in
which the callers invoke their delivery functions (completion order): for any
number `n` of claimed slots and any event trace consisting of delivery
invocations (in any order, before any slot's timeout fires), the emission
sequence is an initial segment `0, 1, …` of the claim order. -/
theorem outputs_delivered_in_claim_order (n : Nat) (tr : List OutputEvent)
    (h : ∀ e ∈ tr, e.isInvoke = true) :
    (runOutput n tr).emitted = List.range (runOutput n tr).emitted.length := by
  suffices hinv : ∀ (l : List OutputEvent) (st : OutputState),
      (∀ e ∈ l, e.isInvoke = true) →
      (st.emitted = List.range st.emitted.length ∧
        ∀ j : Nat, j ∈ st.completed ↔ j ∈ st.emitted) →
      ((l.foldl stepOutput st).emitted =
          List.range (l.foldl stepOutput st).emitted.length ∧
        ∀ j : Nat, j ∈ (l.foldl stepOutput st).completed ↔
          j ∈ (l.foldl stepOutput st).emitted) by
    exact (hinv tr (initOutput n) h ⟨by simp [initOutput], by simp [initOutput]⟩).1
  intro l
  induction l with
  | nil => intro st _ hP; exact hP
  | cons e t ih =>
      intro st htr hP
      show ((t.foldl stepOutput (stepOutput st e)).emitted = _ ∧ _)
      apply ih _ (fun e' he' => htr e' (List.mem_cons.mpr (Or.inr he')))
      cases e with
      | invoke k =>
          show ((flushOutput { st with invoked := k :: st.invoked }
              st.nSlots).emitted = _ ∧ _)
          exact flushOutput_prefixInv _ _ ⟨hP.1, hP.2⟩
      | timeout k =>
          have := htr _ (List.mem_cons.mpr (Or.inl rfl))
          simp [OutputEvent.isInvoke] at this

/-- C1 witness: two slots, deliveries invoked in reverse order; the payloads
are still emitted in claim order `[0, 1]`. -/
theorem outputs_delivered_in_claim_order_witness :
    (∀ e ∈ [OutputEvent.invoke 1, OutputEvent.invoke 0], e.isInvoke = true) ∧
      (runOutput 2 [OutputEvent.invoke 1, OutputEvent.invoke 0]).emitted =
        List.range
          (runOutput 2 [OutputEvent.invoke 1,
            OutputEvent.invoke 0]).emitted.length :=
  ⟨by decide,
    outputs_delivered_in_claim_order 2 [OutputEvent.invoke 1, OutputEvent.invoke 0]
      (by decide)⟩

/-- C5: For every claimed output slot `k`, if the caller never invokes the
returned delivery function, the slot auto-completes with no payload when the
configured output timeout fires (`timeout k` completes the slot), so every
other slot still gets delivered: in any event trace containing `timeout k`
and a delivery invocation of every other slot (in any order), slot `k` ends
completed and every other slot's payload ends emitted — no later slot is
permanently blocked by the stalled slot `k`. -/
theorem stalled_slot_timeout_unblocks_later_slots (n k : Nat)
    (tr : List OutputEvent) (hto : OutputEvent.timeout k ∈ tr)
    (hinv : ∀ i, i < n → i ≠ k → OutputEvent.invoke i ∈ tr) :
    k ∈ (runOutput n tr).completed ∧
      ∀ i, i < n → i ≠ k → i ∈ (runOutput n tr).emitted := by
  have htrne : tr ≠ [] := by
    intro h
    rw [h] at hto
    simp at hto
  have hq := runOutput_quiescent n tr htrne
  have hns : (runOutput n tr).nSlots = n := runOutput_nSlots n tr
  have hwf : OutWF (runOutput n tr) :=
    outWF_foldl tr (initOutput n) (outWF_initOutput n)
  have hkc : k ∈ (runOutput n tr).completed :=
    timeout_mem_foldl tr (initOutput n) k hto
  refine ⟨hkc, ?_⟩
  have main : ∀ i, i < n →
      (i ∈ (runOutput n tr).completed ∧
        (i ≠ k → i ∈ (runOutput n tr).emitted)) := by
    intro i
    induction i using Nat.strong_induction_on with
    | _ i ih =>
      intro hi
      by_cases hik : i = k
      · exact ⟨hik ▸ hkc, fun hne => absurd hik hne⟩
      · have hii : i ∈ (runOutput n tr).invoked :=
          invoke_mem_foldl tr (initOutput n) i (hinv i hi hik)
        have hie : i ∈ (runOutput n tr).emitted := by
          by_contra hie
          have hce : canEmit (runOutput n tr) i = true := by
            rw [canEmit_iff]
            exact ⟨hii, hie, fun j hj => (ih j hj (lt_trans hj hi)).1⟩
          have hfalse := hq i (by rw [hns]; exact hi)
          rw [hce] at hfalse
          exact Bool.true_eq_false.mp hfalse
        exact ⟨hwf.2.2 i hie, fun _ => hie⟩
  intro i hi hik
  exact (main i hi).2 hik

/-- C5 witness: three slots; slot `1` is never delivered and times out, slots
`0` and `2` are delivered; both other payloads are emitted. -/
theorem stalled_slot_timeout_unblocks_later_slots_witness :
    (OutputEvent.timeout 1 ∈
        [OutputEvent.invoke 0, OutputEvent.invoke 2, OutputEvent.timeout 1] ∧
      ∀ i, i < 3 → i ≠ 1 → OutputEvent.invoke i ∈
        [OutputEvent.invoke 0, OutputEvent.invoke 2, OutputEvent.timeout 1]) ∧
      (1 ∈ (runOutput 3 [OutputEvent.invoke 0, OutputEvent.invoke 2,
          OutputEvent.timeout 1]).completed ∧
        ∀ i, i < 3 → i ≠ 1 → i ∈ (runOutput 3 [OutputEvent.invoke 0,
          OutputEvent.invoke 2, OutputEvent.timeout 1]).emitted) :=
  ⟨⟨by decide, by decide⟩,
    stalled_slot_timeout_unblocks_later_slots 3 1
      [OutputEvent.invoke 0, OutputEvent.invoke 2, OutputEvent.timeout 1]
      (by decide) (by decide)⟩

end VsCodeJsDebug
